import Mathlib

set_option maxRecDepth 100000

/-!
Shallow embedding of the register-encoding layer of the libarc2 driver
(`src/registers.rs`), together with proofs of the specification claims.
Machine integers are modelled as `Nat` with explicit bounds and masking.
Operations that can panic in the source (out-of-range indexing, decoding an
invalid bit pattern) return `Option`, with `none` marking the panic.
Bit stores backed by `BitVec<Msb0, u32>` in the source are modelled as
`List Bool` holding the conceptual most-significant-bit-first bit sequence.
-/

/-- Numeric value of a most-significant-bit-first bit sequence (the head of
the list is the most significant bit). -/
def msbNat : List Bool → Nat
  | [] => 0
  | b :: bs => (cond b 1 0) * 2 ^ bs.length + msbNat bs

/-- Number of 32-bit backing words needed for an n-bit store. -/
def numWords (n : Nat) : Nat := (n + 31) / 32

/-- The k-th 32-bit backing word of an Msb0 bit store: bits 32k .. 32k+31 of
the sequence, most significant first, missing bits reading as zero. -/
def wordAt (bs : List Bool) (k : Nat) : Nat :=
  msbNat ((List.range 32).map fun j => bs.getD (32 * k + j) false)

/-- Serialisation of an Msb0 bit store into its backing `u32` words, as
performed by `as_raw_slice` on a `BitVec<Msb0, u32>`. -/
def bitsAsU32s (bs : List Bool) : List Nat :=
  (List.range (numWords bs.length)).map (wordAt bs)

/-- Read back bit p of a serialised word sequence: bit 31 - p mod 32 of
word p / 32. -/
def decodeBit (ws : List Nat) (p : Nat) : Bool :=
  (ws.getD (p / 32) 0).testBit (31 - p % 32)

/-- Store the low w bits of x into positions lo .. lo+w-1 of an Msb0 bit
store, most significant bit of the field first; this is the semantics of
`bits[lo..lo+w].store(x)` on a `BitSlice<Msb0, u32>`. -/
def storeField (lo w x : Nat) (bs : List Bool) : List Bool :=
  (List.range bs.length).map fun p =>
    if lo ≤ p ∧ p < lo + w then x.testBit (lo + w - 1 - p) else bs.getD p false

/-- Load the w-bit field at positions lo .. lo+w-1 of an Msb0 bit store;
this is the semantics of `bits[lo..lo+w].load()`. -/
def loadField (lo w : Nat) (bs : List Bool) : Nat :=
  msbNat ((List.range w).map fun i => bs.getD (lo + i) false)

/-! DAC channel selection register (`mod dacmask`). The flag set is a `u32`
bit pattern; `CHANMAP` is the fixed 64-entry channel-to-half lookup table. -/

/-- DAC channel selection register: a `u32` flag set. -/
structure DACMask where
  bits : Nat
deriving DecidableEq

/-- Fixed lookup table mapping each of the 64 channels to the flag bit of
its half (four consecutive channels share one flag). -/
def CHANMAP : List Nat :=
  [0x1, 0x1, 0x1, 0x1, 0x2, 0x2, 0x2, 0x2,
   0x4, 0x4, 0x4, 0x4, 0x8, 0x8, 0x8, 0x8,
   0x10, 0x10, 0x10, 0x10, 0x20, 0x20, 0x20, 0x20,
   0x40, 0x40, 0x40, 0x40, 0x80, 0x80, 0x80, 0x80,
   0x100, 0x100, 0x100, 0x100, 0x200, 0x200, 0x200, 0x200,
   0x400, 0x400, 0x400, 0x400, 0x800, 0x800, 0x800, 0x800,
   0x1000, 0x1000, 0x1000, 0x1000, 0x2000, 0x2000, 0x2000, 0x2000,
   0x4000, 0x4000, 0x4000, 0x4000, 0x8000, 0x8000, 0x8000, 0x8000]

/-- Enable the given channels: fold OR of the mapped flags; indexing the
table out of range panics (`none`). -/
def DACMask.set_channels (m : DACMask) (chans : List Nat) : Option DACMask :=
  chans.foldlM
    (fun acc c =>
      if c < 64 then some ⟨acc.bits ||| CHANMAP.getD c 0⟩ else none) m

/-- Disable the given channels: fold AND with the complement of the mapped
flag; the Not operator of the flag type truncates the u32 complement to the
union of all defined flags, which is 0x3FFFF (16 half flags plus the two
auxiliary flags). -/
def DACMask.unset_channels (m : DACMask) (chans : List Nat) : Option DACMask :=
  chans.foldlM
    (fun acc c =>
      if c < 64 then
        some ⟨acc.bits &&& ((0xFFFFFFFF ^^^ CHANMAP.getD c 0) &&& 0x3FFFF)⟩
      else none) m

/-- Enable one channel. -/
def DACMask.set_channel (m : DACMask) (c : Nat) : Option DACMask :=
  m.set_channels [c]

/-- Disable one channel. -/
def DACMask.unset_channel (m : DACMask) (c : Nat) : Option DACMask :=
  m.unset_channels [c]

/-- Clear all flags. -/
def DACMask.clear (_ : DACMask) : DACMask := ⟨0⟩

/-- Single-word representation. -/
def DACMask.as_u32 (m : DACMask) : Nat := m.bits

/-- Serialisation: one word. -/
def DACMask.as_u32s (m : DACMask) : List Nat := [m.bits]

/-! Channel configuration register (`mod channelconf`): 3 bits per channel,
six valid states with codes 1 to 6. -/

/-- The six valid per-channel output states. -/
inductive ChannelState where
  | Open
  | CloseGND
  | CapGND
  | VoltArb
  | CurArb
  | HiSpeed
deriving DecidableEq

/-- Wire code of a channel state (the `repr(u8)` discriminant). -/
def ChannelState.toU8 : ChannelState → Nat
  | .Open => 1
  | .CloseGND => 2
  | .CapGND => 3
  | .VoltArb => 4
  | .CurArb => 5
  | .HiSpeed => 6

/-- Decode a wire code; codes outside 1 to 6 have no state
(`ChannelState::from_u8` returns `None` and the caller unwraps, panicking). -/
def ChannelState.from_u8 : Nat → Option ChannelState
  | 1 => some .Open
  | 2 => some .CloseGND
  | 3 => some .CapGND
  | 4 => some .VoltArb
  | 5 => some .CurArb
  | 6 => some .HiSpeed
  | _ => none

/-- Channel configuration register: an Msb0 bit store of 3 bits per
channel. -/
structure ChannelConf where
  bits : List Bool
deriving DecidableEq

/-- Construct with the given channel count, all bits zero. -/
def ChannelConf.new (channels : Nat) : ChannelConf :=
  ⟨List.replicate (channels * 3) false⟩

/-- Bit store after writing state s into channel idx: position 3 idx + i
receives bit 2 - i of the code of the state (code packed most significant bit
first). -/
def setChanBits (bs : List Bool) (idx : Nat) (s : ChannelState) : List Bool :=
  ((bs.set (3 * idx) (s.toU8.testBit 2)).set
      (3 * idx + 1) (s.toU8.testBit 1)).set
    (3 * idx + 2) (s.toU8.testBit 0)

/-- Set channel idx to state s; writing any of the three bit positions out
of range panics (`none`). -/
def ChannelConf.set (c : ChannelConf) (idx : Nat) (s : ChannelState) :
    Option ChannelConf :=
  if 3 * idx + 2 < c.bits.length then some ⟨setChanBits c.bits idx s⟩
  else none

/-- Get the state of channel idx: slice bits 3 idx .. 3 idx + 2 (panic when
out of range) and decode (panic on an invalid code). -/
def ChannelConf.get (c : ChannelConf) (idx : Nat) : Option ChannelState :=
  if 3 * (idx + 1) ≤ c.bits.length then
    ChannelState.from_u8 (msbNat
      [c.bits.getD (3 * idx) false,
       c.bits.getD (3 * idx + 1) false,
       c.bits.getD (3 * idx + 2) false])
  else none

/-- Number of allocated channels. -/
def ChannelConf.len (c : ChannelConf) : Nat := c.bits.length / 3

/-- Set every channel to the same state, channel 0 first. -/
def ChannelConf.set_all (c : ChannelConf) (s : ChannelState) :
    Option ChannelConf :=
  (List.range c.len).foldlM (fun acc i => acc.set i s) c

/-- Serialisation into u32 words. -/
def ChannelConf.as_u32s (c : ChannelConf) : List Nat := bitsAsU32s c.bits

/-- Every channel of the register decodes successfully. -/
abbrev ChannelConf.allValid (c : ChannelConf) : Prop :=
  ∀ i, i < c.len → (c.get i).isSome = true

/-- Registers reachable through the public constructor and the setters
(successful calls only; a panicking call aborts and yields no register). -/
inductive CCReach : ChannelConf → Prop where
  | new (n : Nat) : CCReach (ChannelConf.new n)
  | set {c c' : ChannelConf} {i : Nat} {s : ChannelState} :
      CCReach c → c.set i s = some c' → CCReach c'
  | set_all {c c' : ChannelConf} {s : ChannelState} :
      CCReach c → c.set_all s = some c' → CCReach c'

/-! Source configuration register (`mod sourceconf`): one 32-bit word, the
digipot in the top 10 bits, the current source state in the bottom 4. -/

/-- Current source operation state. -/
inductive CurrentSourceState where
  | Maintain
  | Open
  | VoltageArb
  | HiSpeed
deriving DecidableEq

/-- Wire code of a current source state. -/
def CurrentSourceState.toU8 : CurrentSourceState → Nat
  | .Maintain => 0
  | .Open => 1
  | .VoltageArb => 2
  | .HiSpeed => 3

/-- Decode a current source state code. -/
def CurrentSourceState.from_u8 : Nat → Option CurrentSourceState
  | 0 => some .Maintain
  | 1 => some .Open
  | 2 => some .VoltageArb
  | 3 => some .HiSpeed
  | _ => none

/-- Source configuration register: a 32-bit Msb0 bit store. -/
structure SourceConf where
  bits : List Bool
deriving DecidableEq

/-- Fresh register: all zero except the digipot field set to 0x1CD. -/
def SourceConf.new : SourceConf :=
  ⟨storeField 0 10 0x1CD (List.replicate 32 false)⟩

/-- Set the digipot, clamping values above 0x300 down to 0x300. -/
def SourceConf.set_digipot (c : SourceConf) (v : Nat) : SourceConf :=
  ⟨storeField 0 10 (if v > 0x300 then 0x300 else v) c.bits⟩

/-- Read the digipot field (bits 0 .. 9 of the Msb0 sequence). -/
def SourceConf.get_digipot (c : SourceConf) : Nat := loadField 0 10 c.bits

/-- Store the current source state into bits 28 .. 31. -/
def SourceConf.set_cursource_state (c : SourceConf) (s : CurrentSourceState) :
    SourceConf :=
  ⟨storeField 28 4 s.toU8 c.bits⟩

/-- Read the current source state from bits 24 .. 31 and decode it
(panicking on an invalid code, marked `none`). -/
def SourceConf.get_cursource_state (c : SourceConf) :
    Option CurrentSourceState :=
  CurrentSourceState.from_u8 (loadField 24 8 c.bits)

/-- Serialisation into u32 words. -/
def SourceConf.as_u32s (c : SourceConf) : List Nat := bitsAsU32s c.bits

/-- Source configuration registers reachable through the public operations;
the digipot argument is a `u16`. -/
inductive SCReach : SourceConf → Prop where
  | new : SCReach SourceConf.new
  | set_digipot {c : SourceConf} (v : Nat) :
      SCReach c → v < 2 ^ 16 → SCReach (c.set_digipot v)
  | set_cursource {c : SourceConf} (s : CurrentSourceState) :
      SCReach c → SCReach (c.set_cursource_state s)

/-! DAC voltage register (`mod dacvoltage`): one u32 word per channel,
Vhigh in the upper half, Vlow in the lower half. -/

/-- DAC voltage register: one u32 word per channel. -/
structure DACVoltage where
  values : List Nat
deriving DecidableEq

/-- Construct with the given channel count, each word 0x80008000. -/
def DACVoltage.new_with_size (n : Nat) : DACVoltage :=
  ⟨List.replicate n 0x80008000⟩

/-- Construct with the default four channels. -/
def DACVoltage.new : DACVoltage := DACVoltage.new_with_size 4

/-- Number of configured channels. -/
def DACVoltage.len (d : DACVoltage) : Nat := d.values.length

/-- Set Vhigh of channel idx: the word becomes
`(voltage << 16) | (word & 0xFFFF)`; indexing out of range panics. -/
def DACVoltage.set_high (d : DACVoltage) (idx v : Nat) : Option DACVoltage :=
  if idx < d.values.length then
    some ⟨d.values.set idx
      ((v <<< 16) ||| (d.values.getD idx 0 &&& 0xFFFF))⟩
  else none

/-- Get Vhigh of channel idx: `(word & 0xFFFF0000) >> 16`. -/
def DACVoltage.get_high (d : DACVoltage) (idx : Nat) : Option Nat :=
  if idx < d.values.length then
    some ((d.values.getD idx 0 &&& 0xFFFF0000) >>> 16)
  else none

/-- Set Vlow of channel idx: the source performs `word |= voltage`, an OR
with the existing contents, not a store. -/
def DACVoltage.set_low (d : DACVoltage) (idx v : Nat) : Option DACVoltage :=
  if idx < d.values.length then
    some ⟨d.values.set idx (d.values.getD idx 0 ||| v)⟩
  else none

/-- Get Vlow of channel idx: `word & 0xFFFF`. -/
def DACVoltage.get_low (d : DACVoltage) (idx : Nat) : Option Nat :=
  if idx < d.values.length then some (d.values.getD idx 0 &&& 0xFFFF)
  else none

/-- Set both halves of channel idx: `set_low` then `set_high`. -/
def DACVoltage.set (d : DACVoltage) (idx v : Nat) : Option DACVoltage :=
  (d.set_low idx v).bind fun d' => d'.set_high idx v

/-- Get both halves of channel idx, Vlow first. -/
def DACVoltage.get (d : DACVoltage) (idx : Nat) : Option (Nat × Nat) :=
  match d.get_low idx, d.get_high idx with
  | some lo, some hi => some (lo, hi)
  | _, _ => none

/-- Serialisation: the words themselves. -/
def DACVoltage.as_u32s (d : DACVoltage) : List Nat := d.values

/-- DAC voltage registers reachable through the public operations; voltage
arguments are `u16`. -/
inductive DVReach : DACVoltage → Prop where
  | new : DVReach DACVoltage.new
  | newSize (n : Nat) : DVReach (DACVoltage.new_with_size n)
  | set_high {d d' : DACVoltage} {i v : Nat} :
      DVReach d → v < 2 ^ 16 → d.set_high i v = some d' → DVReach d'
  | set_low {d d' : DACVoltage} {i v : Nat} :
      DVReach d → v < 2 ^ 16 → d.set_low i v = some d' → DVReach d'
  | set {d d' : DACVoltage} {i v : Nat} :
      DVReach d → v < 2 ^ 16 → d.set i v = some d' → DVReach d'

/-! Generic boolean channel mask (`mod u32mask`), with the four word-size
tags and their constructors as written in the source: the `Wx3`
constructor returns a `U32Mask<Wx1>` and the `Wx4` constructor a
`U32Mask<Wx2>`. -/

/-- Word-size tag types `Wx1` .. `Wx4`. -/
inductive WTag where
  | wx1
  | wx2
  | wx3
  | wx4
deriving DecidableEq

/-- The `WORDS` associated constant of each tag. -/
def WTag.words : WTag → Nat
  | .wx1 => 1
  | .wx2 => 2
  | .wx3 => 3
  | .wx4 => 4

/-- Generic boolean channel mask, statically tagged with a word size; the
tag is phantom, the store is an Msb0 bit sequence. -/
structure U32Mask (t : WTag) where
  bits : List Bool
deriving DecidableEq

/-- Number of allocated channels. -/
def U32Mask.len {t : WTag} (m : U32Mask t) : Nat := m.bits.length

/-- Set the flag of channel idx: bit position len - 1 - idx of the Msb0
sequence; out of range the source underflows or indexes past the end and
panics. -/
def U32Mask.set_enabled {t : WTag} (m : U32Mask t) (idx : Nat) (b : Bool) :
    Option (U32Mask t) :=
  if idx < m.bits.length then
    some ⟨m.bits.set (m.bits.length - 1 - idx) b⟩
  else none

/-- Get the flag of channel idx. -/
def U32Mask.get_enabled {t : WTag} (m : U32Mask t) (idx : Nat) : Option Bool :=
  if idx < m.bits.length then some (m.bits.getD (m.bits.length - 1 - idx) false)
  else none

/-- Toggle the flag of channel idx. -/
def U32Mask.toggle {t : WTag} (m : U32Mask t) (idx : Nat) :
    Option (U32Mask t) :=
  (m.get_enabled idx).bind fun b => m.set_enabled idx (!b)

/-- Serialisation into u32 words. -/
def U32Mask.as_u32s {t : WTag} (m : U32Mask t) : List Nat := bitsAsU32s m.bits

/-- Constructor of the one-word specialisation: 32 bits. -/
def U32Mask.newWx1 : U32Mask .wx1 :=
  ⟨List.replicate (WTag.wx1.words * 32) false⟩

/-- Constructor of the two-word specialisation: 64 bits. -/
def U32Mask.newWx2 : U32Mask .wx2 :=
  ⟨List.replicate (WTag.wx2.words * 32) false⟩

/-- Constructor written on `impl U32Mask<Wx3>`: its return type in the
source is `U32Mask<Wx1>`, yet it allocates `Wx3::WORDS * 32 = 96` bits. -/
def U32Mask.newWx3 : U32Mask .wx1 :=
  ⟨List.replicate (WTag.wx3.words * 32) false⟩

/-- Constructor written on `impl U32Mask<Wx4>`: its return type in the
source is `U32Mask<Wx2>`, yet it allocates `Wx4::WORDS * 32 = 128` bits. -/
def U32Mask.newWx4 : U32Mask .wx2 :=
  ⟨List.replicate (WTag.wx4.words * 32) false⟩

/-! Helper lemmas about the bit-store model. -/

/-- Auxiliary: `getD` on a `set` list, with the out-of-range no-op made
explicit. -/
theorem getD_set {α : Type} (l : List α) (m p : Nat) (b d : α) :
    (l.set m b).getD p d = if p = m ∧ p < l.length then b else l.getD p d := by
  induction l generalizing m p with
  | nil => simp
  | cons a t ih =>
      cases m with
      | zero =>
          cases p with
          | zero => simp
          | succ p' => simp [Nat.succ_ne_zero]
      | succ m' =>
          cases p with
          | zero => simp
          | succ p' =>
              simp only [List.set_cons_succ, List.getD_cons_succ,
                List.length_cons, ih]
              congr 1
              simp [Nat.succ_lt_succ_iff]

/-- Auxiliary: `getD` on a replicate list. -/
theorem getD_replicate {α : Type} (n p : Nat) (a d : α) :
    (List.replicate n a).getD p d = if p < n then a else d := by
  induction n generalizing p with
  | zero => simp
  | succ n ih =>
      cases p with
      | zero => simp [List.replicate]
      | succ p' =>
          rw [List.replicate_succ, List.getD_cons_succ, ih]
          simp [Nat.succ_lt_succ_iff]

/-- Auxiliary: `getD` of a map over a range, inside the range. -/
theorem getD_range_map {α : Type} (f : Nat → α) {n j : Nat} (d : α)
    (h : j < n) : ((List.range n).map f).getD j d = f j := by
  rw [List.getD_eq_getElem _ _ (by simpa using h)]
  simp

/-- The value of a bit sequence is bounded by 2 to its length. -/
theorem msbNat_lt (l : List Bool) : msbNat l < 2 ^ l.length := by
  induction l with
  | nil => simp [msbNat]
  | cons b t ih =>
      simp only [msbNat, List.length_cons, pow_succ]
      cases b <;> simp <;> omega

/-- Auxiliary: a high multiple of a power of two does not affect low bits. -/
theorem testBit_add_mul_two_pow (c r L m : Nat) (h : m < L) :
    (c * 2 ^ L + r).testBit m = r.testBit m := by
  have hL : c * 2 ^ L = 2 ^ m * (c * 2 ^ (L - m)) := by
    have : 2 ^ L = 2 ^ m * 2 ^ (L - m) := by
      rw [← pow_add]
      congr 1
      omega
    rw [this]
    ring
  have hdiv : (c * 2 ^ L + r) / 2 ^ m = r / 2 ^ m + c * 2 ^ (L - m) := by
    rw [Nat.add_comm, hL]
    exact Nat.add_mul_div_left r _ (Nat.pos_pow_of_pos m (by norm_num))
  have h2 : c * 2 ^ (L - m) = 2 * (c * 2 ^ (L - m - 1)) := by
    have : 2 ^ (L - m) = 2 * 2 ^ (L - m - 1) := by
      rw [← pow_succ']
      congr 1
      omega
    rw [this]
    ring
  rw [Nat.testBit_to_div_mod, Nat.testBit_to_div_mod, hdiv]
  have hmod : (r / 2 ^ m + c * 2 ^ (L - m)) % 2 = r / 2 ^ m % 2 := by
    omega
  rw [hmod]

/-- Bit m of a most-significant-bit-first sequence value is the list entry
at position length - 1 - m. -/
theorem testBit_msbNat (l : List Bool) (m : Nat) (h : m < l.length) :
    (msbNat l).testBit m = l.getD (l.length - 1 - m) false := by
  induction l generalizing m with
  | nil => simp at h
  | cons b t ih =>
      simp only [List.length_cons] at h
      simp only [msbNat, List.length_cons]
      rcases Nat.lt_trichotomy m t.length with hm | hm | hm
      · rw [testBit_add_mul_two_pow _ _ _ _ hm, ih m hm]
        have he : t.length + 1 - 1 - m = (t.length - 1 - m) + 1 := by omega
        rw [he, List.getD_cons_succ]
      · subst hm
        have hdiv : ((cond b 1 0) * 2 ^ t.length + msbNat t) / 2 ^ t.length
            = cond b 1 0 := by
          rw [Nat.add_comm, Nat.mul_comm,
            Nat.add_mul_div_left _ _ (Nat.pos_pow_of_pos _ (by norm_num)),
            Nat.div_eq_of_lt (msbNat_lt t)]
          omega
        rw [Nat.testBit_to_div_mod, hdiv]
        have he : t.length + 1 - 1 - t.length = 0 := by omega
        rw [he, List.getD_cons_zero]
        cases b <;> simp
      · omega

/-- Bits above the length read as zero. -/
theorem testBit_msbNat_high (l : List Bool) (m : Nat) (h : l.length ≤ m) :
    (msbNat l).testBit m = false :=
  Nat.testBit_lt_two_pow
    (Nat.lt_of_lt_of_le (msbNat_lt l) (Nat.pow_le_pow_right (by norm_num) h))

/-- Serialising a bit store and reading back bit p recovers the stored
bit. -/
theorem decodeBit_bitsAsU32s (bs : List Bool) (p : Nat) (hp : p < bs.length) :
    decodeBit (bitsAsU32s bs) p = bs.getD p false := by
  have h1 : p / 32 < numWords bs.length := by
    unfold numWords
    omega
  unfold decodeBit bitsAsU32s
  rw [getD_range_map _ 0 h1]
  unfold wordAt
  have hlen : ((List.range 32).map fun j => bs.getD (32 * (p / 32) + j) false).length = 32 := by
    simp
  have hm : 31 - p % 32 < 32 := by omega
  rw [testBit_msbNat _ _ (by rw [hlen]; omega), hlen]
  have he : 32 - 1 - (31 - p % 32) = p % 32 := by omega
  rw [he, getD_range_map _ false (by omega)]
  congr 1
  omega

/-! Channel configuration register lemmas. -/

/-- A channel index below the channel count addresses bits inside the
store. -/
theorem three_bound {c : ChannelConf} {i : Nat} (h : i < c.len) :
    3 * i + 2 < c.bits.length := by
  unfold ChannelConf.len at h
  omega

/-- Decoding the packed code of a state yields the state back. -/
theorem decode_encode (s : ChannelState) :
    ChannelState.from_u8 (msbNat
      [s.toU8.testBit 2, s.toU8.testBit 1, s.toU8.testBit 0]) = some s := by
  cases s <;> rfl

/-- Writing a channel changes no bit outside its three positions. -/
theorem setChanBits_getD_outside (bs : List Bool) (i : Nat) (s : ChannelState)
    (p : Nat) (hp : p < 3 * i ∨ 3 * i + 2 < p) :
    (setChanBits bs i s).getD p false = bs.getD p false := by
  unfold setChanBits
  rw [getD_set, getD_set, getD_set]
  rw [if_neg (by omega), if_neg (by omega), if_neg (by omega)]

/-- Writing a channel sets its three bit positions to the bits of the code. -/
theorem setChanBits_getD_self (bs : List Bool) (i : Nat) (s : ChannelState)
    (h : 3 * i + 2 < bs.length) :
    (setChanBits bs i s).getD (3 * i) false = s.toU8.testBit 2 ∧
    (setChanBits bs i s).getD (3 * i + 1) false = s.toU8.testBit 1 ∧
    (setChanBits bs i s).getD (3 * i + 2) false = s.toU8.testBit 0 := by
  unfold setChanBits
  refine ⟨?_, ?_, ?_⟩
  · rw [getD_set, if_neg (by omega), getD_set, if_neg (by omega), getD_set,
      if_pos (by simp; omega)]
  · rw [getD_set, if_neg (by omega), getD_set,
      if_pos (by simp [List.length_set]; omega)]
  · rw [getD_set, if_pos (by simp [List.length_set]; omega)]

/-- Setting a channel preserves the store length. -/
theorem setChanBits_length (bs : List Bool) (i : Nat) (s : ChannelState) :
    (setChanBits bs i s).length = bs.length := by
  simp [setChanBits]

/-- A successful set preserves the store length. -/
theorem cc_set_length {c c' : ChannelConf} {i : Nat} {s : ChannelState}
    (h : c.set i s = some c') : c'.bits.length = c.bits.length := by
  unfold ChannelConf.set at h
  split at h
  · cases h
    exact setChanBits_length c.bits i s
  · cases h

/-- A successful set on channel i addressed in-range bits. -/
theorem cc_set_bound {c c' : ChannelConf} {i : Nat} {s : ChannelState}
    (h : c.set i s = some c') : 3 * i + 2 < c.bits.length := by
  unfold ChannelConf.set at h
  split at h
  · assumption
  · cases h

/-- A successful set followed by a get on the same channel returns the
written state. -/
theorem cc_set_get_self {c c' : ChannelConf} {i : Nat} {s : ChannelState}
    (h : c.set i s = some c') : c'.get i = some s := by
  have hb := cc_set_bound h
  have hbits : c'.bits = setChanBits c.bits i s := by
    unfold ChannelConf.set at h
    rw [if_pos hb] at h
    cases h
    rfl
  have hsf := setChanBits_getD_self c.bits i s hb
  unfold ChannelConf.get
  rw [hbits, setChanBits_length]
  rw [if_pos (by omega)]
  rw [hsf.1, hsf.2.1, hsf.2.2]
  exact decode_encode s

/-- A successful set leaves the get of every other channel unchanged. -/
theorem cc_set_get_frame {c c' : ChannelConf} {i : Nat} {s : ChannelState}
    (h : c.set i s = some c') (j : Nat) (hj : j ≠ i) :
    c'.get j = c.get j := by
  have hbits : c'.bits = setChanBits c.bits i s := by
    unfold ChannelConf.set at h
    split at h
    · cases h
      rfl
    · cases h
  unfold ChannelConf.get
  rw [hbits, setChanBits_length]
  split
  · rw [setChanBits_getD_outside _ _ _ _ (by omega),
      setChanBits_getD_outside _ _ _ _ (by omega),
      setChanBits_getD_outside _ _ _ _ (by omega)]
  · rfl

/-- The fold inside set_all preserves any property preserved by single
sets. -/
theorem foldlM_set_preserves (P : ChannelConf → Prop)
    (hP : ∀ c c' i s, P c → ChannelConf.set c i s = some c' → P c') :
    ∀ (l : List Nat) (s : ChannelState) (c c' : ChannelConf), P c →
      l.foldlM (fun acc i => ChannelConf.set acc i s) c = some c' → P c' := by
  intro l
  induction l with
  | nil =>
      intro s c c' hc h
      simp [List.foldlM] at h
      cases h
      exact hc
  | cons x xs ih =>
      intro s c c' hc h
      rw [List.foldlM_cons] at h
      rcases Option.bind_eq_some.mp h with ⟨c₁, hx, hrest⟩
      exact ih s c₁ c' (hP c c₁ x s hc hx) hrest

/-! Machine-word arithmetic lemmas. -/

/-- OR of two n-bit values is an n-bit value. -/
theorem lor_lt_two_pow {a b n : Nat} (ha : a < 2 ^ n) (hb : b < 2 ^ n) :
    a ||| b < 2 ^ n := by
  have h : a ||| b = Nat.bitwise or a b := rfl
  rw [h]
  exact Nat.bitwise_lt_two_pow ha hb

/-- Masking with 0xFFFF is reduction modulo 2 to the 16. -/
theorem land_ffff (w : Nat) : w &&& 0xFFFF = w % 2 ^ 16 := by
  apply Nat.eq_of_testBit_eq
  intro i
  rw [Nat.testBit_land, Nat.testBit_mod_two_pow]
  have h : (0xFFFF : Nat) = 2 ^ 16 - 1 := by norm_num
  rw [h, Nat.testBit_two_pow_sub_one]
  exact Bool.and_comm _ _

/-- Masking a 32-bit word with 0xFFFF0000 and shifting extracts the upper
half. -/
theorem land_high_shift (w : Nat) (hw : w < 2 ^ 32) :
    (w &&& 0xFFFF0000) >>> 16 = w / 2 ^ 16 := by
  apply Nat.eq_of_testBit_eq
  intro i
  rw [Nat.testBit_shiftRight, Nat.testBit_land]
  have hmask : (0xFFFF0000 : Nat) = (2 ^ 16 - 1) <<< 16 := by
    rw [Nat.shiftLeft_eq]
    norm_num
  rw [hmask, Nat.testBit_shiftLeft, Nat.testBit_two_pow_sub_one]
  rw [← Nat.shiftRight_eq_div_pow, Nat.testBit_shiftRight]
  by_cases hi : i < 16
  · simp [Nat.le_add_right, hi]
  · have h32 : 32 ≤ 16 + i := by omega
    have : w.testBit (16 + i) = false :=
      Nat.testBit_lt_two_pow
        (Nat.lt_of_lt_of_le hw (Nat.pow_le_pow_right (by norm_num) h32))
    simp [this]

/-! Field store and load lemmas. -/

/-- Storing a field preserves the store length. -/
theorem storeField_length (lo w x : Nat) (bs : List Bool) :
    (storeField lo w x bs).length = bs.length := by
  simp [storeField]

/-- Reading any position of a stored-into store. -/
theorem storeField_getD (lo w x : Nat) (bs : List Bool) (p : Nat) :
    (storeField lo w x bs).getD p false =
      if lo ≤ p ∧ p < lo + w ∧ p < bs.length then x.testBit (lo + w - 1 - p)
      else bs.getD p false := by
  by_cases hp : p < bs.length
  · unfold storeField
    rw [getD_range_map _ false hp]
    by_cases hin : lo ≤ p ∧ p < lo + w
    · rw [if_pos hin, if_pos ⟨hin.1, hin.2, hp⟩]
    · rw [if_neg hin, if_neg (by tauto)]
  · rw [List.getD_eq_default _ _ (by rw [storeField_length]; omega),
      List.getD_eq_default _ _ (by omega), if_neg (by omega)]

/-- Loading a field that was just stored returns the stored value reduced
modulo the field width. -/
theorem loadField_storeField (lo w x : Nat) (bs : List Bool)
    (h : lo + w ≤ bs.length) :
    loadField lo w (storeField lo w x bs) = x % 2 ^ w := by
  apply Nat.eq_of_testBit_eq
  intro m
  unfold loadField
  rw [Nat.testBit_mod_two_pow]
  by_cases hm : m < w
  · rw [testBit_msbNat _ m (by simpa using hm)]
    have hlen : ((List.range w).map fun i =>
        (storeField lo w x bs).getD (lo + i) false).length = w := by simp
    rw [hlen, getD_range_map _ false (by omega), storeField_getD]
    rw [if_pos (by omega)]
    have he : lo + w - 1 - (lo + (w - 1 - m)) = m := by omega
    rw [he]
    simp [hm]
  · rw [testBit_msbNat_high _ m (by simpa using hm)]
    simp [hm]

/-- Loading a field disjoint from the stored one is unchanged. -/
theorem loadField_storeField_disjoint (lo w lo' w' x : Nat) (bs : List Bool)
    (h : lo + w ≤ lo' ∨ lo' + w' ≤ lo) :
    loadField lo w (storeField lo' w' x bs) = loadField lo w bs := by
  unfold loadField
  congr 1
  apply List.ext_getElem (by simp)
  intro n h1 h2
  simp only [List.getElem_map, List.getElem_range]
  have hn : n < w := by simpa using h1
  rw [storeField_getD, if_neg (by omega)]

/-! Reachability invariants. -/

/-- Invariant carried by every reachable source configuration register:
32 bits, digipot at most 0x300, and the four dead bits 24 .. 27 clear. -/
theorem screach_inv {c : SourceConf} (h : SCReach c) :
    c.bits.length = 32 ∧ c.get_digipot ≤ 0x300 ∧
      ∀ p, 24 ≤ p → p < 28 → c.bits.getD p false = false := by
  induction h with
  | new =>
      refine ⟨by decide, by decide, ?_⟩
      decide
  | set_digipot v _ _ ih =>
      rcases ih with ⟨hlen, _, hdead⟩
      refine ⟨by simpa [SourceConf.set_digipot, storeField_length] using hlen,
        ?_, ?_⟩
      · unfold SourceConf.get_digipot SourceConf.set_digipot
        rw [loadField_storeField 0 10 _ _ (by omega)]
        have h1024 : (2 : Nat) ^ 10 = 1024 := by norm_num
        rw [h1024]
        split <;> omega
      · intro p hp1 hp2
        unfold SourceConf.set_digipot
        rw [storeField_getD, if_neg (by omega)]
        exact hdead p hp1 hp2
  | set_cursource s _ ih =>
      rcases ih with ⟨hlen, hdig, hdead⟩
      refine ⟨by simpa [SourceConf.set_cursource_state, storeField_length]
          using hlen, ?_, ?_⟩
      · unfold SourceConf.get_digipot SourceConf.set_cursource_state
        rw [loadField_storeField_disjoint 0 10 28 4 _ _ (by omega)]
        exact hdig
      · intro p hp1 hp2
        unfold SourceConf.set_cursource_state
        rw [storeField_getD, if_neg (by omega)]
        exact hdead p hp1 hp2

/-- Invariant carried by every reachable DAC voltage register: every word
fits in 32 bits (read through `getD`, with out-of-range positions giving
zero). -/
theorem dvreach_inv {d : DACVoltage} (h : DVReach d) :
    ∀ i, d.values.getD i 0 < 2 ^ 32 := by
  have hstep : ∀ (old v : Nat), old < 2 ^ 32 → v < 2 ^ 16 →
      (v <<< 16) ||| (old &&& 0xFFFF) < 2 ^ 32 := by
    intro old v _ hv
    apply lor_lt_two_pow
    · rw [Nat.shiftLeft_eq]
      calc v * 2 ^ 16 < 2 ^ 16 * 2 ^ 16 :=
            (Nat.mul_lt_mul_right (by norm_num)).mpr hv
        _ ≤ 2 ^ 32 := by norm_num
    · calc old &&& 0xFFFF ≤ 0xFFFF := Nat.and_le_right
        _ < 2 ^ 32 := by norm_num
  induction h with
  | new =>
      intro i
      unfold DACVoltage.new DACVoltage.new_with_size
      rw [getD_replicate]
      split <;> norm_num
  | newSize n =>
      intro i
      unfold DACVoltage.new_with_size
      rw [getD_replicate]
      split <;> norm_num
  | set_high _ hv hsome ih =>
      rename_i d₀ d' i v _
      intro j
      unfold DACVoltage.set_high at hsome
      split at hsome
      · cases hsome
        simp only
        rw [getD_set]
        split
        · exact hstep _ _ (ih i) hv
        · exact ih j
      · cases hsome
  | set_low _ hv hsome ih =>
      rename_i d₀ d' i v _
      intro j
      unfold DACVoltage.set_low at hsome
      split at hsome
      · cases hsome
        simp only
        rw [getD_set]
        split
        · exact lor_lt_two_pow (ih i) (by
            calc v < 2 ^ 16 := hv
              _ ≤ 2 ^ 32 := by norm_num)
        · exact ih j
      · cases hsome
  | set _ hv hsome ih =>
      rename_i d₀ d' i v _
      intro j
      unfold DACVoltage.set at hsome
      rcases Option.bind_eq_some.mp hsome with ⟨d₁, hlow, hhigh⟩
      have ih₁ : ∀ k, d₁.values.getD k 0 < 2 ^ 32 := by
        intro k
        unfold DACVoltage.set_low at hlow
        split at hlow
        · cases hlow
          simp only
          rw [getD_set]
          split
          · exact lor_lt_two_pow (ih i) (by
              calc v < 2 ^ 16 := hv
                _ ≤ 2 ^ 32 := by norm_num)
          · exact ih k
        · cases hlow
      unfold DACVoltage.set_high at hhigh
      split at hhigh
      · cases hhigh
        simp only
        rw [getD_set]
        split
        · exact hstep _ _ (ih₁ i) hv
        · exact ih₁ j
      · cases hhigh

/-- The bit store produced by a successful set. -/
theorem cc_set_bits {c c' : ChannelConf} {i : Nat} {s : ChannelState}
    (h : c.set i s = some c') : c'.bits = setChanBits c.bits i s := by
  unfold ChannelConf.set at h
  split at h
  · cases h
    rfl
  · cases h

/-- Single sets preserve the valid-or-unwritten channel property. -/
theorem cc_inv_pred_step (c c' : ChannelConf) (i : Nat) (s : ChannelState)
    (hc : ∀ j, j < c.len →
      ((c.bits.getD (3 * j) false = false ∧
        c.bits.getD (3 * j + 1) false = false ∧
        c.bits.getD (3 * j + 2) false = false) ∨ ∃ u, c.get j = some u))
    (h : c.set i s = some c') :
    ∀ j, j < c'.len →
      ((c'.bits.getD (3 * j) false = false ∧
        c'.bits.getD (3 * j + 1) false = false ∧
        c'.bits.getD (3 * j + 2) false = false) ∨ ∃ u, c'.get j = some u) := by
  intro j hj
  have hlen := cc_set_length h
  have hlen' : c'.len = c.len := by
    unfold ChannelConf.len
    rw [hlen]
  by_cases hji : j = i
  · subst hji
    exact Or.inr ⟨s, cc_set_get_self h⟩
  · have hbits := cc_set_bits h
    rcases hc j (by omega) with hz | hv
    · left
      rw [hbits, setChanBits_getD_outside _ _ _ _ (by omega),
        setChanBits_getD_outside _ _ _ _ (by omega),
        setChanBits_getD_outside _ _ _ _ (by omega)]
      exact hz
    · right
      rw [cc_set_get_frame h j hji]
      exact hv

/-- Every channel of a reachable channel configuration register is either
still all-zero (never written) or holds a valid state. -/
theorem ccreach_inv {c : ChannelConf} (h : CCReach c) :
    ∀ i, i < c.len →
      ((c.bits.getD (3 * i) false = false ∧
        c.bits.getD (3 * i + 1) false = false ∧
        c.bits.getD (3 * i + 2) false = false) ∨ ∃ s, c.get i = some s) := by
  induction h with
  | new n =>
      intro i _
      left
      unfold ChannelConf.new
      refine ⟨?_, ?_, ?_⟩ <;> (rw [getD_replicate]; split <;> rfl)
  | set _ hs ih => exact cc_inv_pred_step _ _ _ _ ih hs
  | set_all _ hs ih =>
      unfold ChannelConf.set_all at hs
      exact foldlM_set_preserves _
        (fun a b k u ha hb => cc_inv_pred_step a b k u ha hb) _ _ _ _ ih hs

/-- Value of each entry of the channel-to-half lookup table. -/
theorem chanmap_val : ∀ c, c < 64 → CHANMAP.getD c 0 = 2 ^ (c / 4) := by
  decide

/-- Single-channel enable, unfolded. -/
theorem dacmask_set_channel_eq (m : DACMask) (c : Nat) (hc : c < 64) :
    m.set_channel c = some ⟨m.bits ||| CHANMAP.getD c 0⟩ := by
  unfold DACMask.set_channel DACMask.set_channels
  rw [List.foldlM_cons, if_pos hc]
  rfl

/-- Single-channel disable, unfolded. -/
theorem dacmask_unset_channel_eq (m : DACMask) (c : Nat) (hc : c < 64) :
    m.unset_channel c =
      some ⟨m.bits &&& ((0xFFFFFFFF ^^^ CHANMAP.getD c 0) &&& 0x3FFFF)⟩ := by
  unfold DACMask.unset_channel DACMask.unset_channels
  rw [List.foldlM_cons, if_pos hc]
  rfl

/-! Claim theorems. -/

/-- Claim C1, evaluated at a failing input: `set_low` ORs the requested
value into the channel word instead of storing it, so after `set_low(0, 1)`
on a fresh register (word 0x80008000) `get_low(0)` is 0x8001, not 0x0001,
and after `set(0, 1)` the channel reads (0x8001, 0x0001), not (1, 1);
Vhigh is indeed left unchanged by `set_low`. -/
theorem dacvoltage_set_low_bug_eval :
    (DACVoltage.new.set_low 0 0x0001).bind (fun d => d.get_low 0) =
      some 0x8001 ∧
    (DACVoltage.new.set 0 0x0001).bind (fun d => d.get 0) =
      some (0x8001, 0x0001) ∧
    (DACVoltage.new.set_low 0 0x0001).bind (fun d => d.get_high 0) =
      some 0x8000 := by decide

/-- Claim C2, counterexample: a freshly constructed 64-channel register is
reachable with an empty setter sequence, yet `get(0)` fails (the channel
holds the invalid code 0). -/
theorem channelconf_fresh_get_panics : (ChannelConf.new 64).get 0 = none := by
  decide

/-- Claim C2 as amended: on every reachable channel configuration register,
each channel either still holds the initial all-zero (invalid) code — in
which case `get` fails fast — or holds one of the six valid states, in
which case `get` succeeds; only validated codes are ever written by the
setters, so codes other than 0 and the six valid ones never occur. -/
theorem channelconf_reachable_valid_or_unwritten (c : ChannelConf)
    (h : CCReach c) (i : Nat) (hi : i < c.len) :
    (c.get i = none ∧ c.bits.getD (3 * i) false = false ∧
      c.bits.getD (3 * i + 1) false = false ∧
      c.bits.getD (3 * i + 2) false = false) ∨
    ∃ s, c.get i = some s := by
  rcases ccreach_inv h i hi with ⟨h0, h1, h2⟩ | hv
  · left
    refine ⟨?_, h0, h1, h2⟩
    have hb := three_bound hi
    unfold ChannelConf.get
    rw [if_pos (by omega), h0, h1, h2]
    rfl
  · right
    exact hv

/-- Witness for the amended C2 at a concrete reachable register. -/
theorem channelconf_reachable_valid_or_unwritten_witness :
    CCReach (ChannelConf.new 2) ∧ 0 < (ChannelConf.new 2).len ∧
    (((ChannelConf.new 2).get 0 = none ∧
      (ChannelConf.new 2).bits.getD (3 * 0) false = false ∧
      (ChannelConf.new 2).bits.getD (3 * 0 + 1) false = false ∧
      (ChannelConf.new 2).bits.getD (3 * 0 + 2) false = false) ∨
    ∃ s, (ChannelConf.new 2).get 0 = some s) :=
  ⟨.new 2, by decide,
    channelconf_reachable_valid_or_unwritten _ (.new 2) 0 (by decide)⟩

/-- Claim C3: in a register whose channels all hold valid states, setting
channel i to any valid state s succeeds, a subsequent get of channel i
returns s, and the get of every other channel is unchanged. -/
theorem channelconf_set_get_frame (c : ChannelConf) (_hv : c.allValid)
    (i : Nat) (hi : i < c.len) (s : ChannelState) :
    ∃ c', c.set i s = some c' ∧ c'.get i = some s ∧
      ∀ j, j < c.len → j ≠ i → c'.get j = c.get j := by
  have hb : 3 * i + 2 < c.bits.length := three_bound hi
  have hset : c.set i s = some ⟨setChanBits c.bits i s⟩ := by
    unfold ChannelConf.set
    rw [if_pos hb]
  exact ⟨_, hset, cc_set_get_self hset,
    fun j _ hj => cc_set_get_frame hset j hj⟩

/-- Witness for C3 at a concrete all-valid two-channel register. -/
theorem channelconf_set_get_frame_witness :
    ChannelConf.allValid ⟨[true, false, false, true, false, false]⟩ ∧
    0 < ChannelConf.len ⟨[true, false, false, true, false, false]⟩ ∧
    ∃ c', ChannelConf.set ⟨[true, false, false, true, false, false]⟩ 0 .Open
        = some c' ∧
      c'.get 0 = some .Open ∧
      ∀ j, j < ChannelConf.len ⟨[true, false, false, true, false, false]⟩ →
        j ≠ 0 →
        c'.get j = ChannelConf.get ⟨[true, false, false, true, false, false]⟩ j :=
  ⟨by decide, by decide,
    channelconf_set_get_frame _ (by decide) 0 (by decide) .Open⟩

/-- Claim C4: a 64-channel register with all channels set to VoltArb
(code 4) serialises to exactly the six documented words, the 3-bit codes
packed most-significant-bit-first and split across word boundaries. -/
theorem channelconf_set_all_voltarb_serialisation :
    ((ChannelConf.new 64).set_all .VoltArb).map ChannelConf.as_u32s =
      some [0x92492492, 0x49249249, 0x24924924,
            0x92492492, 0x49249249, 0x24924924] := by decide

/-- Claim C5: for every mask within the defined-flag range (the invariant
of the flag type: every value constructible through its safe interface
keeps bits 18 .. 31 clear), enabling channel c sets exactly the flag bit of
half c / 4 and clears none, disabling clears exactly that bit and no other,
and the documented concrete sequence from the empty mask produces
0x00009001, 0x00009009, 0x00001009 and 0x00000000. -/
theorem dacmask_channel_flag_semantics :
    (∀ (m : DACMask) (c : Nat), m.bits < 2 ^ 18 → c < 64 →
      (∃ m', m.set_channel c = some m' ∧
        ∀ k, m'.bits.testBit k = (m.bits.testBit k || decide (c / 4 = k))) ∧
      (∃ m'', m.unset_channel c = some m'' ∧
        ∀ k, m''.bits.testBit k = (m.bits.testBit k && !decide (c / 4 = k)))) ∧
    DACMask.set_channels ⟨0⟩ [2, 3, 50, 61] = some ⟨0x9001⟩ ∧
    DACMask.as_u32 ⟨0x9001⟩ = 0x00009001 ∧
    DACMask.set_channel ⟨0x9001⟩ 12 = some ⟨0x9009⟩ ∧
    DACMask.unset_channel ⟨0x9009⟩ 61 = some ⟨0x1009⟩ ∧
    DACMask.clear ⟨0x1009⟩ = ⟨0⟩ ∧
    DACMask.as_u32 ⟨0⟩ = 0x00000000 := by
  refine ⟨?_, by decide, by decide, by decide, by decide, by decide, by decide⟩
  intro m c hm hc
  have hmap : CHANMAP.getD c 0 = 2 ^ (c / 4) := chanmap_val c hc
  constructor
  · refine ⟨_, dacmask_set_channel_eq m c hc, ?_⟩
    intro k
    simp only [hmap]
    rw [Nat.testBit_lor, Nat.testBit_two_pow]
  · refine ⟨_, dacmask_unset_channel_eq m c hc, ?_⟩
    intro k
    simp only [hmap]
    have hful : (0xFFFFFFFF : Nat) = 2 ^ 32 - 1 := by norm_num
    have hall : (0x3FFFF : Nat) = 2 ^ 18 - 1 := by norm_num
    rw [Nat.testBit_land, Nat.testBit_land, Nat.testBit_xor,
      Nat.testBit_two_pow, hful, hall, Nat.testBit_two_pow_sub_one,
      Nat.testBit_two_pow_sub_one]
    by_cases hk : k < 18
    · have h32 : k < 32 := by omega
      simp [hk, h32]
    · have hfalse : m.bits.testBit k = false :=
        Nat.testBit_lt_two_pow
          (Nat.lt_of_lt_of_le hm (Nat.pow_le_pow_right (by norm_num) (by omega)))
      simp [hfalse]

/-- Witness for C5 at the empty mask and channel 2. -/
theorem dacmask_channel_flag_semantics_witness :
    DACMask.bits ⟨0⟩ < 2 ^ 18 ∧ (2 : Nat) < 64 ∧
    ((∃ m', DACMask.set_channel ⟨0⟩ 2 = some m' ∧
        ∀ k, m'.bits.testBit k =
          (Nat.testBit (DACMask.bits ⟨0⟩) k || decide (2 / 4 = k))) ∧
      (∃ m'', DACMask.unset_channel ⟨0⟩ 2 = some m'' ∧
        ∀ k, m''.bits.testBit k =
          (Nat.testBit (DACMask.bits ⟨0⟩) k && !decide (2 / 4 = k)))) :=
  ⟨by decide, by decide,
    dacmask_channel_flag_semantics.1 ⟨0⟩ 2 (by decide) (by decide)⟩

/-- Claim C6: set_digipot stores min(v, 0x300) (silent clamp), every
reachable source configuration register keeps the digipot at or below
0x300, and a fresh register has digipot 0x1CD and state Maintain. -/
theorem sourceconf_digipot_clamp_defaults :
    (∀ (c : SourceConf) (v : Nat), SCReach c → v < 2 ^ 16 →
      (c.set_digipot v).get_digipot = min v 0x300) ∧
    (∀ c : SourceConf, SCReach c → c.get_digipot ≤ 0x300) ∧
    SourceConf.new.get_digipot = 0x1CD ∧
    SourceConf.new.get_cursource_state = some .Maintain := by
  refine ⟨?_, fun c hc => (screach_inv hc).2.1, by decide, by decide⟩
  intro c v hc _
  have hlen := (screach_inv hc).1
  unfold SourceConf.set_digipot SourceConf.get_digipot
  rw [loadField_storeField 0 10 _ _ (by omega)]
  have h1024 : (2 : Nat) ^ 10 = 1024 := by norm_num
  rw [h1024]
  split <;> omega

/-- Witness for C6: clamping 0x400 on the fresh register yields 0x300. -/
theorem sourceconf_digipot_clamp_defaults_witness :
    SCReach SourceConf.new ∧ (0x400 : Nat) < 2 ^ 16 ∧
    (SourceConf.new.set_digipot 0x400).get_digipot = min 0x400 0x300 :=
  ⟨.new, by decide,
    sourceconf_digipot_clamp_defaults.1 _ _ .new (by decide)⟩

/-- Claim C7: in the generic boolean mask, channel i lives at bit position
len - 1 - idx of the most-significant-bit-first sequence (get reads it, set
writes exactly it), and the documented concrete run on the fresh two-word
mask serialises as stated, with the toggle of channel 31 clearing the
high bit of word 1. -/
theorem u32mask_reversed_bit_mapping :
    (∀ (t : WTag) (m : U32Mask t) (idx : Nat), idx < m.len →
      m.get_enabled idx = some (m.bits.getD (m.len - 1 - idx) false) ∧
      ∀ b, ∃ m', m.set_enabled idx b = some m' ∧
        m'.bits.getD (m.len - 1 - idx) false = b ∧
        ∀ p, p ≠ m.len - 1 - idx →
          m'.bits.getD p false = m.bits.getD p false) ∧
    ((((U32Mask.newWx2.set_enabled 0 true).bind fun m =>
        m.set_enabled 31 true).bind fun m =>
      m.set_enabled 62 true).map U32Mask.as_u32s =
      some [0x40000000, 0x80000001]) ∧
    (((((U32Mask.newWx2.set_enabled 0 true).bind fun m =>
          m.set_enabled 31 true).bind fun m =>
        m.set_enabled 62 true).bind fun m => m.toggle 31).map
      (fun m => (m.get_enabled 31, m.as_u32s)) =
      some (some false, [0x40000000, 0x00000001])) := by
  refine ⟨?_, by decide, by decide⟩
  intro t m idx hidx
  have hlt : idx < m.bits.length := hidx
  constructor
  · unfold U32Mask.get_enabled
    rw [if_pos hlt]
    rfl
  · intro b
    refine ⟨⟨m.bits.set (m.bits.length - 1 - idx) b⟩, ?_, ?_, ?_⟩
    · unfold U32Mask.set_enabled
      rw [if_pos hlt]
    · show (m.bits.set (m.bits.length - 1 - idx) b).getD
        (m.bits.length - 1 - idx) false = b
      rw [getD_set, if_pos ⟨rfl, by omega⟩]
    · intro p hp
      show (m.bits.set (m.bits.length - 1 - idx) b).getD p false =
        m.bits.getD p false
      rw [getD_set, if_neg (fun hcon => hp hcon.1)]

/-- Witness for the general mapping of C7 at the fresh two-word mask, index 0. -/
theorem u32mask_reversed_bit_mapping_witness :
    0 < U32Mask.newWx2.len ∧
    (U32Mask.newWx2.get_enabled 0 =
        some (U32Mask.newWx2.bits.getD (U32Mask.newWx2.len - 1 - 0) false) ∧
      ∀ b, ∃ m', U32Mask.newWx2.set_enabled 0 b = some m' ∧
        m'.bits.getD (U32Mask.newWx2.len - 1 - 0) false = b ∧
        ∀ p, p ≠ U32Mask.newWx2.len - 1 - 0 →
          m'.bits.getD p false = U32Mask.newWx2.bits.getD p false) :=
  ⟨by decide, u32mask_reversed_bit_mapping.1 .wx2 U32Mask.newWx2 0 (by decide)⟩

/-- Claim C8: the getter-observable state of each register family is
recoverable from the serialised words — decoding bits 3i .. 3i+2 of a
output of a channel configuration register yields get(i); the top 10 bits of
a reachable source configuration word yield get_digipot and the bottom 4
bits yield get_cursource_state; and the upper and lower halves of each
word of a reachable DAC voltage register yield get_high and get_low. -/
theorem register_roundtrip :
    (∀ c : ChannelConf, c.allValid → ∀ i, i < c.len →
      ChannelState.from_u8 (msbNat
        [decodeBit c.as_u32s (3 * i), decodeBit c.as_u32s (3 * i + 1),
         decodeBit c.as_u32s (3 * i + 2)]) = c.get i) ∧
    (∀ c : SourceConf, SCReach c →
      c.as_u32s.getD 0 0 / 2 ^ 22 = c.get_digipot ∧
      CurrentSourceState.from_u8 (c.as_u32s.getD 0 0 % 2 ^ 4) =
        c.get_cursource_state) ∧
    (∀ d : DACVoltage, DVReach d → ∀ i, i < d.len →
      d.get_high i = some (d.as_u32s.getD i 0 / 2 ^ 16) ∧
      d.get_low i = some (d.as_u32s.getD i 0 % 2 ^ 16)) := by
  refine ⟨?_, ?_, ?_⟩
  · intro c _ i hi
    have hb := three_bound hi
    unfold ChannelConf.get
    rw [if_pos (by omega)]
    unfold ChannelConf.as_u32s
    rw [decodeBit_bitsAsU32s _ _ (by omega), decodeBit_bitsAsU32s _ _ (by omega),
      decodeBit_bitsAsU32s _ _ (by omega)]
  · intro c hc
    rcases screach_inv hc with ⟨hlen, _, hdead⟩
    have hword : c.as_u32s.getD 0 0 = wordAt c.bits 0 := by
      unfold SourceConf.as_u32s bitsAsU32s
      rw [getD_range_map _ 0 (by rw [hlen]; decide)]
    constructor
    · rw [hword, ← Nat.shiftRight_eq_div_pow]
      apply Nat.eq_of_testBit_eq
      intro m
      rw [Nat.testBit_shiftRight]
      unfold wordAt SourceConf.get_digipot loadField
      by_cases hm : m < 10
      · rw [testBit_msbNat _ _ (by simp; omega),
          testBit_msbNat _ _ (by simp; omega)]
        simp only [List.length_map, List.length_range]
        rw [getD_range_map _ false (by omega), getD_range_map _ false (by omega)]
        congr 1
        omega
      · rw [testBit_msbNat_high _ _ (by simp; omega),
          testBit_msbNat_high _ _ (by simp; omega)]
    · rw [hword]
      unfold SourceConf.get_cursource_state
      have harg : wordAt c.bits 0 % 2 ^ 4 = loadField 24 8 c.bits := by
        apply Nat.eq_of_testBit_eq
        intro m
        rw [Nat.testBit_mod_two_pow]
        unfold wordAt loadField
        by_cases hm4 : m < 4
        · rw [testBit_msbNat _ _ (by simp; omega),
            testBit_msbNat _ _ (by simp; omega)]
          simp only [List.length_map, List.length_range]
          rw [getD_range_map _ false (by omega),
            getD_range_map _ false (by omega)]
          simp only [hm4, decide_True, Bool.true_and]
          congr 1
          omega
        · by_cases hm8 : m < 8
          · rw [decide_eq_false hm4, Bool.false_and,
              testBit_msbNat _ _ (by simp; omega)]
            simp only [List.length_map, List.length_range]
            rw [getD_range_map _ false (by omega)]
            rw [hdead (24 + (8 - 1 - m)) (by omega) (by omega)]
          · rw [decide_eq_false hm4, Bool.false_and,
              testBit_msbNat_high _ _ (by simp; omega)]
      rw [harg]
  · intro d hd i hi
    have hw := dvreach_inv hd
    have hlt : i < d.values.length := hi
    constructor
    · unfold DACVoltage.get_high DACVoltage.as_u32s
      rw [if_pos hlt, land_high_shift _ (hw i)]
    · unfold DACVoltage.get_low DACVoltage.as_u32s
      rw [if_pos hlt, land_ffff]

/-- Witness for C8 at concrete registers of each family. -/
theorem register_roundtrip_witness :
    (ChannelConf.allValid ⟨[true, false, false]⟩ ∧
      0 < ChannelConf.len ⟨[true, false, false]⟩ ∧
      ChannelState.from_u8 (msbNat
        [decodeBit (ChannelConf.as_u32s ⟨[true, false, false]⟩) (3 * 0),
         decodeBit (ChannelConf.as_u32s ⟨[true, false, false]⟩) (3 * 0 + 1),
         decodeBit (ChannelConf.as_u32s ⟨[true, false, false]⟩) (3 * 0 + 2)]) =
        ChannelConf.get ⟨[true, false, false]⟩ 0) ∧
    (SCReach SourceConf.new ∧
      (SourceConf.new.as_u32s.getD 0 0 / 2 ^ 22 =
          SourceConf.new.get_digipot ∧
        CurrentSourceState.from_u8 (SourceConf.new.as_u32s.getD 0 0 % 2 ^ 4) =
          SourceConf.new.get_cursource_state)) ∧
    (DVReach DACVoltage.new ∧ 0 < DACVoltage.new.len ∧
      (DACVoltage.new.get_high 0 =
          some (DACVoltage.new.as_u32s.getD 0 0 / 2 ^ 16) ∧
        DACVoltage.new.get_low 0 =
          some (DACVoltage.new.as_u32s.getD 0 0 % 2 ^ 16))) :=
  ⟨⟨by decide, by decide, register_roundtrip.1 _ (by decide) 0 (by decide)⟩,
    ⟨.new, register_roundtrip.2.1 _ .new⟩,
    ⟨.new, by decide, register_roundtrip.2.2 _ .new 0 (by decide)⟩⟩

/-- Claim C9: every indexed channel operation called with an index at or
beyond the channel count of the register fails fast (`none`), never silently
coercing or succeeding. -/
theorem out_of_range_indexing_fails :
    (∀ (c : ChannelConf) (i : Nat) (s : ChannelState), c.len ≤ i →
      c.set i s = none) ∧
    (∀ (c : ChannelConf) (i : Nat), c.len ≤ i → c.get i = none) ∧
    (∀ (d : DACVoltage) (i v : Nat), d.len ≤ i → d.set_high i v = none) ∧
    (∀ (d : DACVoltage) (i v : Nat), d.len ≤ i → d.set_low i v = none) ∧
    (∀ (d : DACVoltage) (i v : Nat), d.len ≤ i → d.set i v = none) ∧
    (∀ (d : DACVoltage) (i : Nat), d.len ≤ i → d.get_high i = none) ∧
    (∀ (d : DACVoltage) (i : Nat), d.len ≤ i → d.get_low i = none) ∧
    (∀ (d : DACVoltage) (i : Nat), d.len ≤ i → d.get i = none) ∧
    (∀ (t : WTag) (m : U32Mask t) (i : Nat) (b : Bool), m.len ≤ i →
      m.set_enabled i b = none) ∧
    (∀ (t : WTag) (m : U32Mask t) (i : Nat), m.len ≤ i →
      m.get_enabled i = none) ∧
    (∀ (t : WTag) (m : U32Mask t) (i : Nat), m.len ≤ i → m.toggle i = none) := by
  have hcl : ∀ (d : DACVoltage) (i v : Nat), d.len ≤ i →
      d.set_low i v = none := by
    intro d i v hi
    unfold DACVoltage.len at hi
    unfold DACVoltage.set_low
    rw [if_neg (by omega)]
  have hge : ∀ (t : WTag) (m : U32Mask t) (i : Nat), m.len ≤ i →
      m.get_enabled i = none := by
    intro t m i hi
    unfold U32Mask.len at hi
    unfold U32Mask.get_enabled
    rw [if_neg (by omega)]
  have hgl : ∀ (d : DACVoltage) (i : Nat), d.len ≤ i → d.get_low i = none := by
    intro d i hi
    unfold DACVoltage.len at hi
    unfold DACVoltage.get_low
    rw [if_neg (by omega)]
  refine ⟨?_, ?_, ?_, hcl, ?_, ?_, hgl, ?_, ?_, hge, ?_⟩
  · intro c i s hi
    unfold ChannelConf.len at hi
    unfold ChannelConf.set
    rw [if_neg (by omega)]
  · intro c i hi
    unfold ChannelConf.len at hi
    unfold ChannelConf.get
    rw [if_neg (by omega)]
  · intro d i v hi
    unfold DACVoltage.len at hi
    unfold DACVoltage.set_high
    rw [if_neg (by omega)]
  · intro d i v hi
    unfold DACVoltage.set
    rw [hcl d i v hi]
    rfl
  · intro d i hi
    unfold DACVoltage.len at hi
    unfold DACVoltage.get_high
    rw [if_neg (by omega)]
  · intro d i hi
    unfold DACVoltage.get
    rw [hgl d i hi]
  · intro t m i b hi
    unfold U32Mask.len at hi
    unfold U32Mask.set_enabled
    rw [if_neg (by omega)]
  · intro t m i hi
    unfold U32Mask.toggle
    rw [hge t m i hi]
    rfl

/-- Witness for C9 at concrete registers and the first out-of-range
index of each operation. -/
theorem out_of_range_indexing_fails_witness :
    ((ChannelConf.new 1).len ≤ 1 ∧ (ChannelConf.new 1).set 1 .Open = none) ∧
    ((ChannelConf.new 1).len ≤ 1 ∧ (ChannelConf.new 1).get 1 = none) ∧
    (DACVoltage.new.len ≤ 4 ∧ DACVoltage.new.set_high 4 0 = none) ∧
    (DACVoltage.new.len ≤ 4 ∧ DACVoltage.new.set_low 4 0 = none) ∧
    (DACVoltage.new.len ≤ 4 ∧ DACVoltage.new.set 4 0 = none) ∧
    (DACVoltage.new.len ≤ 4 ∧ DACVoltage.new.get_high 4 = none) ∧
    (DACVoltage.new.len ≤ 4 ∧ DACVoltage.new.get_low 4 = none) ∧
    (DACVoltage.new.len ≤ 4 ∧ DACVoltage.new.get 4 = none) ∧
    (U32Mask.newWx1.len ≤ 32 ∧ U32Mask.newWx1.set_enabled 32 true = none) ∧
    (U32Mask.newWx1.len ≤ 32 ∧ U32Mask.newWx1.get_enabled 32 = none) ∧
    (U32Mask.newWx1.len ≤ 32 ∧ U32Mask.newWx1.toggle 32 = none) :=
  ⟨⟨by decide, out_of_range_indexing_fails.1 _ 1 .Open (by decide)⟩,
    ⟨by decide, out_of_range_indexing_fails.2.1 _ 1 (by decide)⟩,
    ⟨by decide, out_of_range_indexing_fails.2.2.1 _ 4 0 (by decide)⟩,
    ⟨by decide, out_of_range_indexing_fails.2.2.2.1 _ 4 0 (by decide)⟩,
    ⟨by decide, out_of_range_indexing_fails.2.2.2.2.1 _ 4 0 (by decide)⟩,
    ⟨by decide, out_of_range_indexing_fails.2.2.2.2.2.1 _ 4 (by decide)⟩,
    ⟨by decide, out_of_range_indexing_fails.2.2.2.2.2.2.1 _ 4 (by decide)⟩,
    ⟨by decide, out_of_range_indexing_fails.2.2.2.2.2.2.2.1 _ 4 (by decide)⟩,
    ⟨by decide,
      out_of_range_indexing_fails.2.2.2.2.2.2.2.2.1 _ _ 32 true (by decide)⟩,
    ⟨by decide,
      out_of_range_indexing_fails.2.2.2.2.2.2.2.2.2.1 _ _ 32 (by decide)⟩,
    ⟨by decide,
      out_of_range_indexing_fails.2.2.2.2.2.2.2.2.2.2 _ _ 32 (by decide)⟩⟩

/-- Claim C10: the three-word and four-word constructors are cross-wired —
the value built by the constructor written on the Wx3 implementation is
statically a one-word mask yet holds 96 bits and serialises to 3 words,
and the value of the Wx4 constructor is statically a two-word mask yet holds
128 bits and serialises to 4 words, unlike the honest Wx1 and Wx2
constructors. -/
theorem u32mask_crosswired_constructors :
    (U32Mask.newWx3 : U32Mask .wx1).len = 96 ∧
    U32Mask.newWx3.as_u32s.length = 3 ∧
    (U32Mask.newWx4 : U32Mask .wx2).len = 128 ∧
    U32Mask.newWx4.as_u32s.length = 4 ∧
    U32Mask.newWx1.len = WTag.wx1.words * 32 ∧
    U32Mask.newWx2.len = WTag.wx2.words * 32 ∧
    U32Mask.newWx3.len ≠ WTag.wx1.words * 32 ∧
    U32Mask.newWx4.len ≠ WTag.wx2.words * 32 := by decide
